import Mathlib

/-!
Verification of `src/sample/main.py` (VS-Code-Debug-Bridge sample project).

The Python source defines three pure computations — `fibonacci`,
`find_primes`, `process_users` — and a driver `main` that runs them on
fixed inputs and prints formatted lines.  This file gives a shallow
embedding of those functions and proves the specified properties.

Modelling conventions:
* Python integers are `Int` at the interface (so negative arguments are
  representable); the sequences themselves only ever hold non-negative
  values and are `List Nat`.
* A Python dict is an association list `List (String × PyValue)` where
  `PyValue` is the universe of values the program stores in dicts
  (strings and integers).  `d[k]` is `dict_get`, which fails like a
  `KeyError` when the key is absent.
* Fallible computations return `Except String α`; an uncaught Python
  exception is the `.error` case.
* `int(num ** 0.5)` in `find_primes` is modelled as `Nat.sqrt num`, the
  exact integer square root, which is what the float expression computes
  on every machine-representable input of interest.
-/

namespace SampleMain

/-- Loop body of `fibonacci` in `main.py`: each of the `n` iterations of
`for i in range(n)` appends `a` to `sequence` and then rebinds
`(a, b) := (b, a + b)`.  `seq` is the accumulated `sequence` list. -/
def fibonacciAux (seq : List Nat) (a b : Nat) : Nat → List Nat
  | 0 => seq
  | n + 1 => fibonacciAux (seq ++ [a]) b (a + b) n

/-- Function `fibonacci(n)` from `main.py`.  `range(n)` performs `max n 0`
iterations, hence `Int.toNat`: a negative argument runs the loop zero
times. -/
def fibonacci (n : Int) : List Nat := fibonacciAux [] 0 1 n.toNat

/-- Cons-form of the fibonacci loop, used for reasoning: the suffix the
loop still has to produce when the current pair is `(a, b)`. -/
def fibSpine (a b : Nat) : Nat → List Nat
  | 0 => []
  | n + 1 => a :: fibSpine b (a + b) n

/-- The two-seeded Fibonacci recurrence: `fibFrom a b 0 = a`,
`fibFrom a b 1 = b`, and each later term is the sum of the previous
two. -/
def fibFrom (a b : Nat) : Nat → Nat
  | 0 => a
  | 1 => b
  | n + 2 => fibFrom a b n + fibFrom a b (n + 1)

theorem fibonacciAux_eq_append (n : Nat) :
    ∀ (seq : List Nat) (a b : Nat),
      fibonacciAux seq a b n = seq ++ fibSpine a b n := by
  induction n with
  | zero => intro seq a b; simp [fibonacciAux, fibSpine]
  | succ n ih =>
      intro seq a b
      simp [fibonacciAux, fibSpine, ih]

theorem fibFrom_shift (a b : Nat) :
    ∀ i, fibFrom a b (i + 1) = fibFrom b (a + b) i := by
  intro i
  induction i using Nat.strong_induction_on with
  | _ i ih =>
      match i with
      | 0 => simp [fibFrom]
      | 1 => simp [fibFrom]
      | i + 2 =>
          have h1 := ih i (by omega)
          have h2 := ih (i + 1) (by omega)
          calc fibFrom a b (i + 3)
              = fibFrom a b (i + 1) + fibFrom a b (i + 2) := by
                simp [fibFrom]
            _ = fibFrom b (a + b) i + fibFrom b (a + b) (i + 1) := by
                rw [h1, h2]
            _ = fibFrom b (a + b) (i + 2) := by simp [fibFrom]

theorem fibSpine_eq_map_range (n : Nat) :
    ∀ a b, fibSpine a b n = (List.range n).map (fibFrom a b) := by
  induction n with
  | zero => intro a b; simp [fibSpine]
  | succ n ih =>
      intro a b
      rw [List.range_succ_eq_map]
      simp only [fibSpine, List.map_cons, List.map_map]
      refine congrArg₂ _ rfl ?_
      rw [ih b (a + b)]
      refine List.map_congr_left fun i _ => ?_
      simp only [Function.comp_apply, Nat.succ_eq_add_one]
      exact (fibFrom_shift a b i).symm

theorem fibonacci_eq_map_range (n : Nat) :
    fibonacci (n : Int) = (List.range n).map (fibFrom 0 1) := by
  unfold fibonacci
  rw [fibonacciAux_eq_append, fibSpine_eq_map_range]
  simp

theorem fibonacci_length (n : Nat) : (fibonacci (n : Int)).length = n := by
  rw [fibonacci_eq_map_range]; simp

theorem fibonacci_getD (n i : Nat) (h : i < n) :
    (fibonacci (n : Int)).getD i 0 = fibFrom 0 1 i := by
  rw [fibonacci_eq_map_range]
  rw [List.getD_eq_getElem _ _ (by simpa using h)]
  simp

/-- C1: for every non-negative integer `N`, `fibonacci N` has length
exactly `N`, its first element is `0` when `N ≥ 1`, its second is `1`
when `N ≥ 2`, and every element from the third onward is the sum of the
two immediately preceding elements. -/
theorem fibonacci_sequence_spec (N : Nat) :
    (fibonacci (N : Int)).length = N ∧
    (1 ≤ N → (fibonacci (N : Int)).getD 0 0 = 0) ∧
    (2 ≤ N → (fibonacci (N : Int)).getD 1 0 = 1) ∧
    (∀ i, i + 2 < N →
      (fibonacci (N : Int)).getD (i + 2) 0 =
        (fibonacci (N : Int)).getD i 0 + (fibonacci (N : Int)).getD (i + 1) 0) := by
  refine ⟨fibonacci_length N, ?_, ?_, ?_⟩
  · intro h
    rw [fibonacci_getD N 0 (by omega)]
    rfl
  · intro h
    rw [fibonacci_getD N 1 (by omega)]
    rfl
  · intro i h
    rw [fibonacci_getD N (i + 2) (by omega), fibonacci_getD N i (by omega),
      fibonacci_getD N (i + 1) (by omega)]
    simp [fibFrom]

/-- Witness for C1 at `N = 5`: `fibonacci 5 = [0, 1, 1, 2, 3]` and the
spec facts hold there. -/
theorem fibonacci_sequence_spec_witness :
    (fibonacci (5 : Int)).length = 5 ∧
    (fibonacci (5 : Int)).getD 0 0 = 0 ∧
    (fibonacci (5 : Int)).getD 1 0 = 1 ∧
    (fibonacci (5 : Int)).getD 4 0 =
      (fibonacci (5 : Int)).getD 2 0 + (fibonacci (5 : Int)).getD 3 0 := by
  obtain ⟨h1, h2, h3, h4⟩ := fibonacci_sequence_spec 5
  exact ⟨h1, h2 (by decide), h3 (by decide), h4 2 (by decide)⟩

/-- C8: for every negative integer `n`, `fibonacci n` is the empty
sequence, the same result as `fibonacci 0`: the `for i in range(n)` loop
does not execute. -/
theorem fibonacci_neg (n : Int) (h : n < 0) :
    fibonacci n = [] ∧ fibonacci n = fibonacci 0 := by
  have hz : n.toNat = 0 := Int.toNat_of_nonpos (le_of_lt h)
  unfold fibonacci
  rw [hz]
  exact ⟨rfl, rfl⟩

/-- Witness for C8 at `n = -3`. -/
theorem fibonacci_neg_witness :
    fibonacci (-3) = [] ∧ fibonacci (-3) = fibonacci 0 :=
  fibonacci_neg (-3) (by decide)

/-- Executable integer square root (the largest `k` with `k * k ≤ n`),
used to model `int(num ** 0.5)`.  Written as a scan so that the kernel
can evaluate it; `intSqrt_eq_sqrt` below proves it is `Nat.sqrt`. -/
def intSqrt (n : Nat) : Nat :=
  ((List.range (n + 1)).filter fun k => k * k ≤ n).length - 1

theorem length_filter_le_range (m s : Nat) :
    ((List.range m).filter fun k => decide (k ≤ s)).length = min (s + 1) m := by
  induction m with
  | zero => simp
  | succ m ih =>
      rw [List.range_succ, List.filter_append, List.length_append, ih]
      by_cases h : m ≤ s
      · simp [h]
        omega
      · simp [h]
        omega

theorem intSqrt_eq_sqrt (n : Nat) : intSqrt n = Nat.sqrt n := by
  unfold intSqrt
  have hpred : ∀ k : Nat, (decide (k * k ≤ n)) = (decide (k ≤ Nat.sqrt n)) := by
    intro k
    simp [Nat.le_sqrt]
  calc ((List.range (n + 1)).filter fun k => decide (k * k ≤ n)).length - 1
      = ((List.range (n + 1)).filter fun k => decide (k ≤ Nat.sqrt n)).length - 1 := by
        rw [List.filter_congr fun k _ => hpred k]
    _ = min (Nat.sqrt n + 1) (n + 1) - 1 := by rw [length_filter_le_range]
    _ = Nat.sqrt n := by
        have := Nat.sqrt_le_self n
        omega

/-- Inner loop of `find_primes` in `main.py`: trial division of `num` by
every `i` in `range(2, int(num ** 0.5) + 1)`; `is_prime` ends up `True`
iff no such `i` divides `num` (the `break` only short-circuits).
`int(num ** 0.5)` is the integer square root, embedded as `intSqrt`. -/
def trialDivisionIsPrime (num : Nat) : Bool :=
  (List.range' 2 (intSqrt num + 1 - 2)).all fun i => num % i != 0

/-- Function `find_primes(limit)` from `main.py`: the outer loop runs `num` over
`range(2, limit + 1)` and appends `num` to `primes` when the trial
division marks it prime, i.e. it filters the range. -/
def find_primes (limit : Int) : List Nat :=
  (List.range' 2 (limit + 1 - 2).toNat).filter trialDivisionIsPrime

theorem trialDivisionIsPrime_iff_prime (num : Nat) (h2 : 2 ≤ num) :
    trialDivisionIsPrime num = true ↔ Nat.Prime num := by
  have hs : 1 ≤ Nat.sqrt num := Nat.sqrt_pos.mpr (by omega)
  rw [Nat.prime_def_le_sqrt]
  unfold trialDivisionIsPrime
  rw [intSqrt_eq_sqrt, List.all_eq_true]
  constructor
  · intro hall
    refine ⟨h2, fun m hm2 hmsqrt hdvd => ?_⟩
    have hmem : m ∈ List.range' 2 (Nat.sqrt num + 1 - 2) := by
      rw [List.mem_range'_1]
      omega
    have := hall m hmem
    simp only [bne_iff_ne, ne_eq] at this
    exact this (Nat.dvd_iff_mod_eq_zero.mp hdvd)
  · rintro ⟨-, hnd⟩ i hi
    rw [List.mem_range'_1] at hi
    simp only [bne_iff_ne, ne_eq]
    intro hmod
    exact hnd i hi.1 (by omega) (Nat.dvd_iff_mod_eq_zero.mpr hmod)

theorem mem_find_primes (limit : Int) (p : Nat) :
    p ∈ find_primes limit ↔ Nat.Prime p ∧ 2 ≤ p ∧ (p : Int) ≤ limit := by
  unfold find_primes
  rw [List.mem_filter, List.mem_range'_1]
  constructor
  · rintro ⟨⟨h2, hlt⟩, hb⟩
    refine ⟨(trialDivisionIsPrime_iff_prime p h2).mp hb, h2, ?_⟩
    omega
  · rintro ⟨hp, h2, hle⟩
    refine ⟨⟨h2, ?_⟩, (trialDivisionIsPrime_iff_prime p h2).mpr hp⟩
    omega

/-- C2: for every integer `limit`, `find_primes limit` is strictly
increasing and contains exactly the primes `p` with `2 ≤ p ≤ limit`
(primality being decided by trial division up to the integer square
root); in particular any `limit < 2` yields the empty list. -/
theorem find_primes_spec (limit : Int) :
    (∀ p, p ∈ find_primes limit ↔ Nat.Prime p ∧ 2 ≤ p ∧ (p : Int) ≤ limit) ∧
    (find_primes limit).Pairwise (· < ·) ∧
    (limit < 2 → find_primes limit = []) := by
  refine ⟨mem_find_primes limit, ?_, ?_⟩
  · exact (List.pairwise_lt_range' 2 _).filter _
  · intro hlt
    unfold find_primes
    have : (limit + 1 - 2).toNat = 0 := by omega
    rw [this]
    rfl

/-- Witness for C2 at `limit = 10`: the list is `[2, 3, 5, 7]`, the
membership equivalence holds at `p = 5`, and `find_primes 1 = []`. -/
theorem find_primes_spec_witness :
    find_primes 10 = [2, 3, 5, 7] ∧
    (5 ∈ find_primes 10 ↔ Nat.Prime 5 ∧ 2 ≤ 5 ∧ (5 : Int) ≤ 10) ∧
    find_primes 1 = [] := by
  refine ⟨by decide, (find_primes_spec 10).1 5, (find_primes_spec 1).2.2 (by decide)⟩

/-- Universe of values the program stores in user dicts: the strings and
integers of `main.py`. -/
inductive PyValue where
  | str (s : String)
  | int (i : Int)
deriving DecidableEq

/-- A Python dict, as the association list of its key/value pairs. -/
abbrev PyDict : Type := List (String × PyValue)

/-- Key lookup on a dict, as a plain `Option`. -/
def PyDict.find (d : PyDict) (k : String) : Option PyValue :=
  List.lookup k d

/-- Subscript access `d[k]` in Python: the value under `k`, or a `KeyError` when `k` is
absent (the error message carries the missing key). -/
def dict_get (d : PyDict) (k : String) : Except String PyValue :=
  match d.find k with
  | some v => .ok v
  | none => .error ("KeyError: " ++ k)

/-- The age-bracket rule from line 35 of `main.py`, on an integer age:
`"senior" if age >= 60 else "adult" if age >= 18 else "minor"`. -/
def status_of_age (age : Int) : String :=
  if age ≥ 60 then "senior" else if age ≥ 18 then "adult" else "minor"

/-- Line 35 of `main.py` on a dynamic value: the chained conditional
compares `age` with `60` and `18`, which raises a `TypeError` when the
value is not an integer. -/
def status_of : PyValue → Except String String
  | .int a => .ok (status_of_age a)
  | .str _ => .error "TypeError: not supported between instances of str and int"

/-- One iteration of the `process_users` loop body: extract `name`, then
`age`, classify, and build the three-field result dict. -/
def classify_one (user : PyDict) : Except String PyDict := do
  let name ← dict_get user "name"
  let age ← dict_get user "age"
  let status ← status_of age
  pure [("name", name), ("age", age), ("status", .str status)]

/-- Function `process_users(users)` from `main.py`: classify each record in
order, appending to `results`; the first uncaught exception aborts the
whole call, so no partial list escapes. -/
def process_users : List PyDict → Except String (List PyDict)
  | [] => .ok []
  | user :: rest => do
    let r ← classify_one user
    let rs ← process_users rest
    pure (r :: rs)

/-- C3: the classification status is a pure total function of the age
alone, with brackets `age ≥ 60 → "senior"`, `18 ≤ age < 60 → "adult"`,
`age < 18 → "minor"` (negative ages included), and the stated boundary
values. -/
theorem status_of_age_brackets (age : Int) :
    (age ≥ 60 → status_of_age age = "senior") ∧
    (18 ≤ age ∧ age < 60 → status_of_age age = "adult") ∧
    (age < 18 → status_of_age age = "minor") ∧
    status_of_age 18 = "adult" ∧
    status_of_age 60 = "senior" ∧
    status_of_age 17 = "minor" ∧
    status_of_age 59 = "adult" ∧
    (age < 0 → status_of_age age = "minor") := by
  unfold status_of_age
  refine ⟨?_, ?_, ?_, by decide, by decide, by decide, by decide, ?_⟩
  · intro h
    rw [if_pos h]
  · rintro ⟨h1, h2⟩
    rw [if_neg (by omega), if_pos (by omega)]
  · intro h
    rw [if_neg (by omega), if_neg (by omega)]
  · intro h
    rw [if_neg (by omega), if_neg (by omega)]

/-- Witness for C3 at `age = 65`. -/
theorem status_of_age_brackets_witness : status_of_age 65 = "senior" :=
  (status_of_age_brackets 65).1 (by decide)

/-- A record whose `"age"` value, when present, is an integer.  The
spec's user records carry integer ages; a non-integer age would make
line 35 raise `TypeError` instead of the missing-field `KeyError`. -/
def AgeWellTyped (u : PyDict) : Prop :=
  ∀ v, u.find "age" = some v → ∃ i, v = PyValue.int i

theorem classify_one_eq_ok (u : PyDict) (n : PyValue) (a : Int)
    (hn : u.find "name" = some n) (ha : u.find "age" = some (.int a)) :
    classify_one u =
      .ok [("name", n), ("age", .int a), ("status", .str (status_of_age a))] := by
  unfold classify_one dict_get
  rw [hn, ha]
  rfl

theorem classify_one_err_name (u : PyDict) (hn : u.find "name" = none) :
    classify_one u = .error ("KeyError: " ++ "name") := by
  unfold classify_one dict_get
  rw [hn]
  rfl

theorem classify_one_err_age (u : PyDict) (n : PyValue)
    (hn : u.find "name" = some n) (ha : u.find "age" = none) :
    classify_one u = .error ("KeyError: " ++ "age") := by
  unfold classify_one dict_get
  rw [hn, ha]
  rfl

theorem process_users_cons (u : PyDict) (rest : List PyDict) :
    process_users (u :: rest) =
      (classify_one u).bind fun r =>
        (process_users rest).bind fun rs => .ok (r :: rs) := by
  rfl

theorem process_users_isOk_iff (users : List PyDict)
    (hwt : ∀ u ∈ users, AgeWellTyped u) :
    (∃ out, process_users users = .ok out) ↔
      ∀ u ∈ users, (u.find "name").isSome ∧ (u.find "age").isSome := by
  induction users with
  | nil => simp [process_users]
  | cons u rest ih =>
      have hwt_u : AgeWellTyped u := hwt u (List.mem_cons_self u rest)
      have hwt_rest : ∀ v ∈ rest, AgeWellTyped v :=
        fun v hv => hwt v (List.mem_cons_of_mem u hv)
      rw [process_users_cons]
      cases hn : u.find "name" with
      | none =>
          rw [classify_one_err_name u hn]
          simp [hn, Except.bind]
      | some n =>
          cases ha : u.find "age" with
          | none =>
              rw [classify_one_err_age u n hn ha]
              simp [hn, ha, Except.bind]
          | some v =>
              obtain ⟨a, rfl⟩ := hwt_u v ha
              rw [classify_one_eq_ok u n a hn ha]
              constructor
              · rintro ⟨out, hout⟩
                simp only [Except.bind] at hout
                cases hrest : process_users rest with
                | error e => rw [hrest] at hout; exact absurd hout (by simp)
                | ok rs =>
                    intro x hx
                    rcases List.mem_cons.mp hx with rfl | hx'
                    · exact ⟨by simp [hn], by simp [ha]⟩
                    · exact ((ih hwt_rest).mp ⟨rs, hrest⟩) x hx'
              · intro hall
                obtain ⟨rs, hrs⟩ := (ih hwt_rest).mpr
                  fun x hx => hall x (List.mem_cons_of_mem u hx)
                exact ⟨_, by rw [hrs]; rfl⟩

theorem process_users_ok_elim (users : List PyDict) :
    ∀ out, process_users users = .ok out →
      out.length = users.length ∧
      ∀ i (hi : i < users.length),
        classify_one (users.get ⟨i, hi⟩) = .ok (out.getD i []) := by
  induction users with
  | nil =>
      intro out hout
      simp only [process_users] at hout
      cases hout
      exact ⟨rfl, fun i hi => absurd hi (by simp)⟩
  | cons u rest ih =>
      intro out hout
      rw [process_users_cons] at hout
      cases hc : classify_one u with
      | error e => rw [hc] at hout; exact absurd hout (by simp [Except.bind])
      | ok r =>
          rw [hc] at hout
          cases hrest : process_users rest with
          | error e => rw [hrest] at hout; exact absurd hout (by simp [Except.bind])
          | ok rs =>
              rw [hrest] at hout
              simp only [Except.bind, Except.ok.injEq] at hout
              obtain ⟨hlen, hget⟩ := ih rs hrest
              subst hout
              refine ⟨by simp [hlen], ?_⟩
              intro i hi
              match i with
              | 0 => simpa using hc
              | j + 1 =>
                  have hj : j < rest.length := by
                    simpa using Nat.lt_of_succ_lt_succ hi
                  simpa using hget j hj

theorem process_users_first_error (users : List PyDict)
    (hwt : ∀ u ∈ users, AgeWellTyped u) :
    (∃ out, process_users users = .ok out) ∨
      process_users users = .error ("KeyError: " ++ "name") ∨
      process_users users = .error ("KeyError: " ++ "age") := by
  induction users with
  | nil => exact Or.inl ⟨[], rfl⟩
  | cons u rest ih =>
      have hwt_u : AgeWellTyped u := hwt u (List.mem_cons_self u rest)
      have hwt_rest : ∀ v ∈ rest, AgeWellTyped v :=
        fun v hv => hwt v (List.mem_cons_of_mem u hv)
      rw [process_users_cons]
      cases hn : u.find "name" with
      | none =>
          rw [classify_one_err_name u hn]
          exact Or.inr (Or.inl rfl)
      | some n =>
          cases ha : u.find "age" with
          | none =>
              rw [classify_one_err_age u n hn ha]
              exact Or.inr (Or.inr rfl)
          | some v =>
              obtain ⟨a, rfl⟩ := hwt_u v ha
              rw [classify_one_eq_ok u n a hn ha]
              rcases ih hwt_rest with ⟨out, hout⟩ | herr | herr
              · exact Or.inl ⟨_, by rw [hout]; rfl⟩
              · exact Or.inr (Or.inl (by rw [herr]; rfl))
              · exact Or.inr (Or.inr (by rw [herr]; rfl))

/-- C4: with integer-typed ages, `process_users` succeeds exactly when
every record has both `name` and `age`; on success the output has the
input's length and its `i`-th record holds the `i`-th input's name and
age plus its status; otherwise the call aborts with a missing-field
`KeyError` and, the result being an `error`, no partial list reaches the
caller. -/
theorem process_users_success_iff (users : List PyDict)
    (hwt : ∀ u ∈ users, AgeWellTyped u) :
    ((∃ out, process_users users = .ok out) ↔
      ∀ u ∈ users, (u.find "name").isSome ∧ (u.find "age").isSome) ∧
    (∀ out, process_users users = .ok out →
      out.length = users.length ∧
      ∀ i (hi : i < users.length),
        ∃ n a s, (users.get ⟨i, hi⟩).find "name" = some n ∧
          (users.get ⟨i, hi⟩).find "age" = some a ∧
          status_of a = .ok s ∧
          out.getD i [] = [("name", n), ("age", a), ("status", .str s)]) ∧
    (¬ (∀ u ∈ users, (u.find "name").isSome ∧ (u.find "age").isSome) →
      process_users users = .error ("KeyError: " ++ "name") ∨
      process_users users = .error ("KeyError: " ++ "age")) := by
  refine ⟨process_users_isOk_iff users hwt, ?_, ?_⟩
  · intro out hout
    obtain ⟨hlen, hget⟩ := process_users_ok_elim users out hout
    refine ⟨hlen, fun i hi => ?_⟩
    have hu := hget i hi
    have hmem : users.get ⟨i, hi⟩ ∈ users := List.get_mem users i hi
    cases hn : (users.get ⟨i, hi⟩).find "name" with
    | none => rw [classify_one_err_name _ hn] at hu; exact absurd hu (by simp)
    | some n =>
        cases ha : (users.get ⟨i, hi⟩).find "age" with
        | none => rw [classify_one_err_age _ n hn ha] at hu; exact absurd hu (by simp)
        | some v =>
            obtain ⟨a, rfl⟩ := hwt _ hmem v ha
            rw [classify_one_eq_ok _ n a hn ha] at hu
            simp only [Except.ok.injEq] at hu
            exact ⟨n, .int a, status_of_age a, rfl, rfl, rfl, hu.symm⟩
  · intro hnot
    rcases process_users_first_error users hwt with hok | herr | herr
    · exact absurd ((process_users_isOk_iff users hwt).mp hok) hnot
    · exact Or.inl herr
    · exact Or.inr herr

/-- Witness for C4 on a concrete two-record list where the second record
lacks `age`: the call fails with the `age` `KeyError`. -/
theorem process_users_success_iff_witness :
    process_users
        [[("name", .str "Ann"), ("age", .int 20)], [("name", .str "Bo")]] =
      .error ("KeyError: " ++ "name") ∨
    process_users
        [[("name", .str "Ann"), ("age", .int 20)], [("name", .str "Bo")]] =
      .error ("KeyError: " ++ "age") :=
  (process_users_success_iff
      [[("name", .str "Ann"), ("age", .int 20)], [("name", .str "Bo")]]
      (by
        intro u hu
        rcases List.mem_cons.mp hu with rfl | hu'
        · intro v hv
          have hev : PyDict.find [("name", PyValue.str "Ann"), ("age", PyValue.int 20)]
              "age" = some (.int 20) := rfl
          exact ⟨20, Option.some.inj (hv.symm.trans hev)⟩
        · rcases List.mem_cons.mp hu' with rfl | hu''
          · intro v hv
            have hev : PyDict.find [("name", PyValue.str "Bo")] "age" = none := rfl
            rw [hev] at hv
            cases hv
          · exact absurd hu'' (by simp))).2.2
    (by
      intro hall
      have h2 := (hall [("name", .str "Bo")]
        (List.mem_cons_of_mem _ (List.mem_cons_self _ _))).2
      have hev : PyDict.find [("name", PyValue.str "Bo")] "age" = none := rfl
      rw [hev] at h2
      cases h2)

/-- C9: classification is idempotent per record.  Classifying a record
built from the `(name, age)` pair of an already-classified record gives
a record with the same status. -/
theorem process_users_idempotent_status (name : PyValue) (age : Int) :
    ∃ r r', process_users [[("name", name), ("age", .int age)]] = .ok [r] ∧
      ∃ n a, r.find "name" = some n ∧ r.find "age" = some a ∧
        process_users [[("name", n), ("age", a)]] = .ok [r'] ∧
        r'.find "status" = r.find "status" :=
  ⟨_, _, rfl, name, .int age, rfl, rfl, rfl, rfl⟩

/-- C10: `process_users` is a pure function of its input in this
embedding (the loop only reads `user["name"]` / `user["age"]` and
builds fresh dicts, so the input list and records are never modified);
when every record carries `name` and `age` — whatever extra fields it
also carries — the call succeeds, and each output record has exactly
the fields `name`, `age`, `status`, with `name` and `age` copied
unchanged from the corresponding input record. -/
theorem process_users_frame (users : List PyDict) :
    (∀ u ∈ users, ∃ n, u.find "name" = some n) →
    (∀ u ∈ users, ∃ a : Int, u.find "age" = some (.int a)) →
    ∃ out, process_users users = .ok out ∧ out.length = users.length ∧
      ∀ i (hi : i < users.length),
        (out.getD i []).map Prod.fst = ["name", "age", "status"] ∧
        (out.getD i []).find "name" = (users.get ⟨i, hi⟩).find "name" ∧
        (out.getD i []).find "age" = (users.get ⟨i, hi⟩).find "age" ∧
        ∃ s, (out.getD i []).find "status" = some (.str s) := by
  induction users with
  | nil =>
      intro _ _
      exact ⟨[], rfl, rfl, fun i hi => absurd hi (by simp)⟩
  | cons u rest ih =>
      intro hname hage
      obtain ⟨n, hn⟩ := hname u (List.mem_cons_self u rest)
      obtain ⟨a, ha⟩ := hage u (List.mem_cons_self u rest)
      obtain ⟨out, hout, hlen, hget⟩ := ih
        (fun v hv => hname v (List.mem_cons_of_mem u hv))
        (fun v hv => hage v (List.mem_cons_of_mem u hv))
      refine ⟨[("name", n), ("age", .int a), ("status", .str (status_of_age a))] :: out,
        ?_, ?_, ?_⟩
      · rw [process_users_cons, classify_one_eq_ok u n a hn ha, hout]
        rfl
      · simpa using hlen
      · intro i hi
        match i with
        | 0 =>
            simp only [List.getD_cons_zero]
            have e0 : (u :: rest).get ⟨0, hi⟩ = u := rfl
            rw [e0, hn, ha]
            exact ⟨rfl, rfl, rfl, status_of_age a, rfl⟩
        | j + 1 =>
            have hj : j < rest.length := by
              simpa using Nat.lt_of_succ_lt_succ hi
            have e1 : (u :: rest).get ⟨j + 1, hi⟩ = rest.get ⟨j, hj⟩ := rfl
            simp only [List.getD_cons_succ]
            rw [e1]
            exact hget j hj

/-- Witness for C10 on a single record that carries an extra field
besides `name` and `age`. -/
theorem process_users_frame_witness :
    ∃ out,
      process_users [[("name", .str "Zed"), ("age", .int 30), ("mode", .int 1)]] =
        .ok out ∧
      out.length = 1 ∧
      ∀ i (hi : i < (1 : Nat)),
        (out.getD i []).map Prod.fst = ["name", "age", "status"] ∧
        (out.getD i []).find "name" =
          (([[("name", .str "Zed"), ("age", .int 30), ("mode", .int 1)]] :
            List PyDict).get ⟨i, hi⟩).find "name" ∧
        (out.getD i []).find "age" =
          (([[("name", .str "Zed"), ("age", .int 30), ("mode", .int 1)]] :
            List PyDict).get ⟨i, hi⟩).find "age" ∧
        ∃ s, (out.getD i []).find "status" = some (.str s) :=
  process_users_frame [[("name", .str "Zed"), ("age", .int 30), ("mode", .int 1)]]
    (by
      intro u hu
      rcases List.mem_cons.mp hu with rfl | h
      · exact ⟨.str "Zed", rfl⟩
      · exact absurd h (by simp))
    (by
      intro u hu
      rcases List.mem_cons.mp hu with rfl | h
      · exact ⟨30, rfl⟩
      · exact absurd h (by simp))

/-- Python `str()` of a stored value, as f-string interpolation uses. -/
def pyStr : PyValue → String
  | .str s => s
  | .int i => toString i

/-- Python `repr` of a list of non-negative integers, as an f-string
renders `fib` and `primes`: `[a, b, c]` with `, ` between elements. -/
def pyListRepr (l : List Nat) : String :=
  "[" ++ String.intercalate ", " (l.map fun n => toString n) ++ "]"

/-- The fixed literal user list from `main`. -/
def mainUsers : List PyDict :=
  [[("name", .str "Alice"), ("age", .int 30)],
   [("name", .str "Bob"), ("age", .int 17)],
   [("name", .str "Charlie"), ("age", .int 65)]]

/-- Function `main()` from `main.py`, modelled as the list of lines it prints to
standard output, in order (an uncaught exception would surface as
`.error`, never happening on the fixed inputs). -/
def main_lines : Except String (List String) := do
  let fib := fibonacci 10
  let primes := find_primes 30
  let processed ← process_users mainUsers
  let userLines ← processed.mapM fun u => do
    let n ← dict_get u "name"
    let s ← dict_get u "status"
    pure ("  " ++ pyStr n ++ ": " ++ pyStr s)
  let total := fib.sum + primes.sum
  pure (("Fibonacci(10): " ++ pyListRepr fib) ::
    ("Primes up to 30: " ++ pyListRepr primes) ::
    (userLines ++ ["Total: " ++ toString total]))

/-- C5: the driver's fixed inputs give exactly the expected Fibonacci
terms, primes, and classified records, in order. -/
theorem main_end_to_end :
    fibonacci 10 = [0, 1, 1, 2, 3, 5, 8, 13, 21, 34] ∧
    find_primes 30 = [2, 3, 5, 7, 11, 13, 17, 19, 23, 29] ∧
    process_users mainUsers = .ok
      [[("name", .str "Alice"), ("age", .int 30), ("status", .str "adult")],
       [("name", .str "Bob"), ("age", .int 17), ("status", .str "minor")],
       [("name", .str "Charlie"), ("age", .int 65), ("status", .str "senior")]] :=
  ⟨rfl, rfl, rfl⟩

/-- C6 counterexample: the claimed sums are wrong.  The primes up to 30
sum to 129, not 159, and the printed total is 217, not 247. -/
theorem main_total_claim_false :
    ¬ ((fibonacci 10).sum = 88 ∧
       (find_primes 30).sum = 159 ∧
       (fibonacci 10).sum + (find_primes 30).sum = 247) := by
  intro h
  have := h.2.1
  revert this
  decide

/-- C6 as amended: in the fixed run the Fibonacci terms sum to 88, the
primes to 129, and the printed total is 217. -/
theorem main_total :
    (fibonacci 10).sum = 88 ∧
    (find_primes 30).sum = 129 ∧
    (fibonacci 10).sum + (find_primes 30).sum = 217 ∧
    ∃ lines, main_lines = .ok lines ∧ lines.getLast? = some "Total: 217" := by
  refine ⟨by decide, by decide, by decide, _, rfl, ?_⟩
  decide

/-- C7: the driver prints, in order, the labelled Fibonacci line, the
labelled primes line, one `  name: status` line per user (two leading
spaces, input order), and a `Total:` line whose integer is the sum of
the Fibonacci terms plus the sum of the primes. -/
theorem main_output_format :
    main_lines = .ok
      ["Fibonacci(10): [0, 1, 1, 2, 3, 5, 8, 13, 21, 34]",
       "Primes up to 30: [2, 3, 5, 7, 11, 13, 17, 19, 23, 29]",
       "  Alice: adult",
       "  Bob: minor",
       "  Charlie: senior",
       "Total: " ++ toString ((fibonacci 10).sum + (find_primes 30).sum)] :=
  rfl

end SampleMain
